import Mathlib

/-!
Verification of the krakend-martian `fromJWT` request modifier
(`fromJWT.go`): a shallow embedding of the claim-to-request mapping
engine, together with theorems about its behaviour.

Modelling conventions:
* Go strings are modelled as Lean `String` / `List Char`; all inputs of
  interest are ASCII, where Go's byte-wise operations and the char-wise
  model agree.
* Go functions that can panic at runtime (index out of range) are embedded
  with result type `Option _`, `none` marking the panic.
* Go `error` returns are embedded as `Except String _` (the error message)
  or, for the request-mutating steps, as the `Res` type below which also
  keeps the partially mutated request on failure — Go mutates the request
  in place and does not roll back.
* `map[string]T` is an association list with unique keys; assignment
  (`m[k] = v`) is `assocSet`, lookup `assocGet`.
* Go `encoding/json` numbers are `float64`; they are modelled on their
  integral subset (`JsonValue.num : Int`), exact for integer-valued claims
  of magnitude below `2^53` (which `float64` represents exactly and whose
  shortest round-trip digits are the integer's own digits); values with
  fractional parts are outside the model.
-/

namespace FromJwt

/-- `strings.Split(l, sep)` for a one-character separator, presented as the
first resulting segment paired with the remaining segments. -/
def splitAux (sep : Char) : List Char → List Char × List (List Char)
  | [] => ([], [])
  | c :: rest =>
    let r := splitAux sep rest
    if c = sep then ([], r.1 :: r.2) else (c :: r.1, r.2)

/-- `strings.Split(l, sep)`: the full list of segments (always non-empty). -/
def splitStr (sep : Char) (l : List Char) : List (List Char) :=
  (splitAux sep l).1 :: (splitAux sep l).2

/-- The `cleanup empty parts` loop of `replaceVarInUrl`. -/
def filterNE (l : List (List Char)) : List (List Char) :=
  l.filter (fun p => p ≠ [])

/-- The rebuild loop of `replaceVarInUrl`: for each cleaned segment emit a
`/` and then either the replacement (when the running index, a Go `int`,
equals `varPosition`) or the original segment. -/
def rebuildAux : List (List Char) → Int → Int → List Char → List Char
  | [], _, _, _ => []
  | s :: rest, i, pos, nv =>
    '/' :: ((if i = pos then nv else s) ++ rebuildAux rest (i + 1) pos nv)

/-- All segments of a list joined, each preceded by `/` (the rebuild loop
when no index matches the requested position). -/
def joinSegs : List (List Char) → List Char
  | [] => []
  | s :: rest => '/' :: (s ++ joinSegs rest)

/-- The cleaned (non-empty) slash-separated segments of a path. -/
def cleanedOf (s : String) : List (List Char) :=
  filterNE (splitStr '/' s.toList)

/-- `FromJWT.replaceVarInUrl` from `fromJWT.go`. `none` models the Go
runtime panic: when the cleaned segment list is empty and the input ends
with `/`, the Go code evaluates `newUrl[len(newUrl)-1]` on an empty
string, an index-out-of-range panic. -/
def replaceVarInUrl (url : String) (varPosition : Int) (newValue : String) :
    Option String :=
  if url = "" then some ""
  else
    let cleanedParts := filterNE (splitStr '/' url.toList)
    let newUrl := rebuildAux cleanedParts 0 varPosition newValue.toList
    if url.toList.getLastD ' ' = '/' then
      match newUrl.getLast? with
      | none => none
      | some c => if c ≠ '/' then some (newUrl ++ ['/']).asString
                  else some newUrl.asString
    else some newUrl.asString

theorem toList_asString (l : List Char) : l.asString.toList = l := rfl

theorem splitAux_append_no_sep (sep : Char) (x u : List Char) (hx : sep ∉ x) :
    splitAux sep (x ++ u) = (x ++ (splitAux sep u).1, (splitAux sep u).2) := by
  induction x with
  | nil => simp
  | cons c rest ih =>
    simp only [List.mem_cons, not_or] at hx
    have hcs : ¬ (c = sep) := fun h => hx.1 h.symm
    simp [splitAux, ih hx.2, hcs]

theorem splitAux_append_sep (sep : Char) (x : List Char) :
    splitAux sep (x ++ [sep]) = ((splitAux sep x).1, (splitAux sep x).2 ++ [[]]) := by
  induction x with
  | nil => simp [splitAux]
  | cons c rest ih =>
    by_cases h : c = sep <;> simp [splitAux, ih, h]

theorem splitAux_no_sep (sep : Char) (l : List Char) :
    sep ∉ (splitAux sep l).1 ∧ ∀ p ∈ (splitAux sep l).2, sep ∉ p := by
  induction l with
  | nil => simp [splitAux]
  | cons c rest ih =>
    by_cases h : c = sep
    · simpa [splitAux, h] using ⟨ih.1, ih.2⟩
    · have hsc : ¬ (sep = c) := fun hh => h hh.symm
      simpa [splitAux, h, hsc] using ⟨ih.1, ih.2⟩

theorem filterNE_cons_nil (l : List (List Char)) :
    filterNE ([] :: l) = filterNE l := by
  simp [filterNE]

theorem filterNE_splitStr_append_sep (x : List Char) :
    filterNE (splitStr '/' (x ++ ['/'])) = filterNE (splitStr '/' x) := by
  simp [splitStr, splitAux_append_sep, filterNE, List.filter_append, List.filter_cons]

theorem joinSegs_ne_nil (s : List Char) (rest : List (List Char)) :
    joinSegs (s :: rest) ≠ [] := by simp [joinSegs]

theorem joinSegs_ne_nil' (l : List (List Char)) (h : l ≠ []) : joinSegs l ≠ [] := by
  cases l with
  | nil => exact absurd rfl h
  | cons a t => exact joinSegs_ne_nil a t

theorem splitAux_joinSegs_fst (segs : List (List Char)) :
    (splitAux '/' (joinSegs segs)).1 = [] := by
  cases segs with
  | nil => simp [joinSegs, splitAux]
  | cons s rest => simp [joinSegs, splitAux]

theorem cleaned_joinSegs (segs : List (List Char))
    (h : ∀ s ∈ segs, s ≠ [] ∧ '/' ∉ s) :
    filterNE (splitStr '/' (joinSegs segs)) = segs := by
  induction segs with
  | nil => simp [joinSegs, splitStr, splitAux, filterNE]
  | cons s rest ih =>
    obtain ⟨hs, hsl⟩ := h s (List.mem_cons_self s rest)
    have hrest := fun x hx => h x (List.mem_cons_of_mem s hx)
    have hsplit : splitAux '/' (s ++ joinSegs (rest)) =
        (s, (splitAux '/' (joinSegs rest)).2) := by
      rw [splitAux_append_no_sep '/' s _ hsl, splitAux_joinSegs_fst]
      simp
    have ihr : filterNE ((splitAux '/' (joinSegs rest)).2) = rest := by
      have := ih hrest
      rwa [splitStr, splitAux_joinSegs_fst, filterNE_cons_nil] at this
    show filterNE (splitStr '/' ('/' :: (s ++ joinSegs rest))) = s :: rest
    have hsa : splitAux '/' ('/' :: (s ++ joinSegs rest))
        = ([], s :: (splitAux '/' (joinSegs rest)).2) := by
      simp [splitAux, hsplit]
    rw [splitStr, hsa]
    show filterNE ([] :: s :: (splitAux '/' (joinSegs rest)).2) = s :: rest
    rw [filterNE_cons_nil]
    have hstep : filterNE (s :: (splitAux '/' (joinSegs rest)).2)
        = s :: filterNE ((splitAux '/' (joinSegs rest)).2) := by
      simp [filterNE, List.filter_cons, hs]
    rw [hstep, ihr]

theorem rebuildAux_lt (segs : List (List Char)) (i pos : Int) (nv : List Char)
    (h : pos < i) : rebuildAux segs i pos nv = joinSegs segs := by
  induction segs generalizing i with
  | nil => rfl
  | cons s rest ih =>
    have hne : ¬ (i = pos) := by omega
    simp [rebuildAux, joinSegs, hne, ih (i + 1) (by omega)]

theorem rebuildAux_set (segs : List (List Char)) (nv : List Char) (i : Int) (k : Nat)
    (hk : k < segs.length) :
    rebuildAux segs i (i + k) nv = joinSegs (segs.set k nv) := by
  induction segs generalizing i k with
  | nil => simp at hk
  | cons s rest ih =>
    cases k with
    | zero =>
      have h0 : i + ((0 : Nat) : Int) = i := by simp
      simp [rebuildAux, h0, joinSegs, rebuildAux_lt rest (i + 1) i nv (by omega)]
    | succ j =>
      have hlen : j < rest.length := by simpa using hk
      have hne : ¬ (i = i + ((j + 1 : Nat) : Int)) := by push_cast; omega
      show '/' :: ((if i = i + ((j + 1 : Nat) : Int) then nv else s) ++
          rebuildAux rest (i + 1) (i + ((j + 1 : Nat) : Int)) nv)
        = joinSegs ((s :: rest).set (j + 1) nv)
      rw [if_neg hne]
      have harg : i + ((j + 1 : Nat) : Int) = (i + 1) + (j : Int) := by push_cast; ring
      rw [harg, ih (i + 1) j hlen]
      rfl

theorem mem_cleanedOf (url : String) (s : List Char) (hs : s ∈ cleanedOf url) :
    s ≠ [] ∧ '/' ∉ s := by
  have hmem := List.mem_of_mem_filter hs
  have hne : s ≠ [] := by
    have := List.of_mem_filter hs
    simpa using this
  refine ⟨hne, ?_⟩
  rcases List.mem_cons.mp hmem with h1 | h2
  · exact h1 ▸ (splitAux_no_sep '/' url.toList).1
  · exact (splitAux_no_sep '/' url.toList).2 s h2

/-- C4, amended: for a replacement value that is itself a valid segment
(non-empty and slash-free) and an in-range position `k`, `replaceVarInUrl`
succeeds and the cleaned segment list of the result is exactly the input's
cleaned segment list with entry `k` replaced. -/
theorem replaceVarInUrl_set_segment (url v : String) (k : Nat)
    (hk : k < (cleanedOf url).length)
    (hv1 : v.toList ≠ []) (hv2 : '/' ∉ v.toList) :
    ∃ r : String, replaceVarInUrl url (k : Int) v = some r ∧
      cleanedOf r = (cleanedOf url).set k v.toList := by
  have hurl : url ≠ "" := by
    intro h
    rw [h] at hk
    have : cleanedOf "" = [] := rfl
    rw [this] at hk
    simp at hk
  set segs : List (List Char) := (cleanedOf url).set k v.toList with hsegs
  have hallseg : ∀ s ∈ segs, s ≠ [] ∧ '/' ∉ s := by
    intro s hs
    rcases List.mem_or_eq_of_mem_set hs with hmem | heq
    · exact mem_cleanedOf url s hmem
    · exact heq ▸ ⟨hv1, hv2⟩
  have hlen : 0 < segs.length := by
    rw [hsegs, List.length_set]
    omega
  have hsegs_ne : segs ≠ [] := List.ne_nil_of_length_pos hlen
  have hrebuild : rebuildAux (filterNE (splitStr '/' url.toList)) 0 (k : Int) v.toList
      = joinSegs segs := by
    have h0 := rebuildAux_set (cleanedOf url) v.toList 0 k hk
    simpa [cleanedOf] using h0
  have hclean : filterNE (splitStr '/' (joinSegs segs)) = segs :=
    cleaned_joinSegs segs hallseg
  have hne' : joinSegs segs ≠ [] := joinSegs_ne_nil' segs hsegs_ne
  by_cases hlast : url.toList.getLastD ' ' = '/'
  · have hsome : (joinSegs segs).getLast?.isSome := List.getLast?_isSome.mpr hne'
    obtain ⟨c, hc⟩ := Option.isSome_iff_exists.mp hsome
    by_cases hcs : c = '/'
    · refine ⟨(joinSegs segs).asString, ?_, ?_⟩
      · simp only [replaceVarInUrl, if_neg hurl, hrebuild, if_pos hlast, hc, hcs]
        simp
      · show filterNE (splitStr '/' (joinSegs segs).asString.toList)
            = (cleanedOf url).set k v.toList
        rw [toList_asString, hclean]
    · refine ⟨(joinSegs segs ++ ['/']).asString, ?_, ?_⟩
      · simp only [replaceVarInUrl, if_neg hurl, hrebuild, if_pos hlast, hc]
        simp [hcs]
      · show filterNE (splitStr '/' ((joinSegs segs ++ ['/']).asString.toList))
            = (cleanedOf url).set k v.toList
        rw [toList_asString, filterNE_splitStr_append_sep, hclean]
  · refine ⟨(joinSegs segs).asString, ?_, ?_⟩
    · simp only [replaceVarInUrl, if_neg hurl, hrebuild, if_neg hlast]
    · show filterNE (splitStr '/' (joinSegs segs).asString.toList)
          = (cleanedOf url).set k v.toList
      rw [toList_asString, hclean]

/-- Witness for the amended C4 at a concrete input: replacing segment 1 of
`/a/b/c` by `X`. -/
theorem replaceVarInUrl_set_segment_witness :
    ∃ r : String, replaceVarInUrl "/a/b/c" ((1 : Nat) : Int) "X" = some r ∧
      cleanedOf r = (cleanedOf "/a/b/c").set 1 "X".toList :=
  replaceVarInUrl_set_segment "/a/b/c" "X" 1 (by decide) (by decide) (by decide)

/-- Counterexample to C4 as stated: it quantifies over every value `v`, but
for `v = "x/y"` (a value containing a slash) the rebuilt path `/a/x/y` does
not have `x/y` as its segment at position 1 — the slash inside the value
creates an extra segment, so the other segments are not preserved as the
claim requires. -/
theorem replaceVarInUrl_slash_value_cex :
    replaceVarInUrl "/a/b" 1 "x/y" = some "/a/x/y" ∧
      cleanedOf "/a/x/y" ≠ (cleanedOf "/a/b").set 1 "x/y".toList := by
  exact ⟨rfl, by decide⟩

/-- C1 (code bug evidence): on an input path consisting only of slashes the
cleaned segment list is empty, the rebuilt string is empty, and the Go code
evaluates `newUrl[len(newUrl)-1]` on that empty string — an index
out-of-range panic (`none` in this embedding) rather than the permissive
no-op return the specification describes. -/
theorem replaceVarInUrl_panics_on_all_slash_path :
    replaceVarInUrl "/" 0 "x" = none ∧ replaceVarInUrl "///" 2 "x" = none :=
  ⟨rfl, rfl⟩

/-- C5: the four literal cases of `TestReplaceVarInUrl`, reproduced exactly
(each Go result `r` appears here as `some r`). -/
theorem replaceVarInUrl_literal_cases :
    replaceVarInUrl "/v1/files/{fileID}/specs/{specID}/" 2 "2"
        = some "/v1/files/2/specs/{specID}/" ∧
    replaceVarInUrl "/v1/files/{fileID}/specs/{specID}" 4 "4"
        = some "/v1/files/{fileID}/specs/4" ∧
    replaceVarInUrl "/v1" 4 "4" = some "/v1" ∧
    replaceVarInUrl "oldValue" 0 "newValue" = some "/newValue" :=
  ⟨rfl, rfl, rfl, rfl⟩

/-!
## JSON values

Go's `encoding/json` decodes into `interface{}`: `nil`, `bool`, `float64`,
`string`, `[]interface{}` and `map[string]interface{}`. Arrays and objects
are mutual inductives here (rather than nested `List`s) so that all
functions over them are plain mutual structural recursions that the kernel
can evaluate. Numbers are modelled on their integral subset (`Int`).
Objects keep their fields as an association list with unique keys; Go's
unordered map with sorted-key formatting is recovered by sorting at
formatting/serialization time.
-/

mutual
inductive JsonValue where
  | null
  | bool (b : Bool)
  | num (n : Int)
  | str (s : String)
  | arr (l : JsonArr)
  | obj (o : JsonObj)
inductive JsonArr where
  | nil
  | cons (v : JsonValue) (rest : JsonArr)
inductive JsonObj where
  | nil
  | cons (k : String) (v : JsonValue) (rest : JsonObj)
end

/-- Lookup in a `map[string]interface{}`. -/
def objGet : JsonObj → String → Option JsonValue
  | .nil, _ => none
  | .cons k v rest, key => if k == key then some v else objGet rest key

/-- Assignment `m[key] = val` on a `map[string]interface{}` represented as
an association list with unique keys: replace the binding if present,
otherwise add it. -/
def objSet : JsonObj → String → JsonValue → JsonObj
  | .nil, key, val => .cons key val .nil
  | .cons k v rest, key, val =>
    if k == key then .cons key val rest else .cons k v (objSet rest key val)

theorem objGet_set_self : (o : JsonObj) → (key : String) → (val : JsonValue) →
    objGet (objSet o key val) key = some val
  | .nil, key, val => by simp [objGet, objSet]
  | .cons k v rest, key, val => by
    by_cases h : k == key
    · simp [objGet, objSet, h]
    · simp [objGet, objSet, h, objGet_set_self rest key val]

theorem objGet_set_other : (o : JsonObj) → (key key' : String) → (val : JsonValue) →
    key' ≠ key → objGet (objSet o key val) key' = objGet o key'
  | .nil, key, key', val, h => by
    have hkk : ¬ (key == key') := by simpa using fun e => h e.symm
    simp [objGet, objSet, hkk]
  | .cons k v rest, key, key', val, h => by
    have hkk : ¬ (key == key') := by simpa using fun e => h e.symm
    by_cases hk : k == key
    · have hk' : ¬ (k == key') := by
        have hkeq : k = key := by simpa using hk
        simpa [hkeq] using hkk
      simp [objGet, objSet, hk, hkk, hk']
    · by_cases hk2 : k == key'
      · simp [objGet, objSet, hk, hk2]
      · simp [objGet, objSet, hk, hk2, objGet_set_other rest key key' val h]

/-- Byte-wise (here: character-wise, exact on ASCII) lexicographic `<` on
strings, as Go's `sort.Strings` uses for map-key ordering. -/
def strLt : List Char → List Char → Bool
  | [], [] => false
  | [], _ :: _ => true
  | _ :: _, [] => false
  | a :: as, b :: bs =>
    if a.val < b.val then true else if b.val < a.val then false else strLt as bs

def sortInsert (p : String × String) : List (String × String) → List (String × String)
  | [] => [p]
  | q :: rest => if strLt p.1.toList q.1.toList then p :: q :: rest else q :: sortInsert p rest

/-- Insertion sort by key: the ascending key order in which Go's `fmt` and
`encoding/json` render map entries. -/
def sortPairs : List (String × String) → List (String × String)
  | [] => []
  | p :: rest => sortInsert p (sortPairs rest)

/-- `fmt.Sprintf("%v", f)` for a `float64` holding the integral value `n`,
i.e. `strconv.FormatFloat(f, 'g', -1, 64)`: with shortest precision the
`'g'` verb picks scientific notation exactly when the decimal exponent is
below `-4` or at least `6`. On integers that means plain decimal up to
six digits (`999999`) and `d.ddde+XX` from `10^6` on (`1e+06`,
`1.7e+09`), the mantissa being the digits with trailing zeros stripped
and the exponent padded to at least two digits. -/
def govFmtNum (n : Int) : String :=
  if n = 0 then "0"
  else
    let sign := if n < 0 then "-" else ""
    let digits := (toString n.natAbs).toList
    if digits.length ≤ 6 then sign ++ toString n.natAbs
    else
      let sig := (digits.reverse.dropWhile (fun c => c == '0')).reverse
      let mantissa :=
        match sig with
        | [] => "0"
        | d :: rest =>
          if rest = [] then String.mk [d]
          else String.mk [d] ++ "." ++ rest.asString
      let exp := digits.length - 1
      let expStr := if exp < 10 then "0" ++ toString exp else toString exp
      sign ++ mantissa ++ "e+" ++ expStr

mutual
/-- `fmt.Sprintf("%v", v)` for a decoded JSON value: Go's default format.
Strings print as themselves, booleans as `true`/`false`, numbers in the
shortest `%g` form (`govFmtNum`), `nil` as `<nil>`; slices print as
space-separated elements in square brackets and maps as
`map[key:value ...]` with keys sorted. -/
def govFmtV : JsonValue → String
  | .null => "<nil>"
  | .bool b => if b then "true" else "false"
  | .num n => govFmtNum n
  | .str s => s
  | .arr l => "[" ++ " ".intercalate (govFmtA l) ++ "]"
  | .obj o =>
    "map[" ++ " ".intercalate
      ((sortPairs (govFmtO o)).map (fun p => p.1 ++ ":" ++ p.2)) ++ "]"
def govFmtA : JsonArr → List String
  | .nil => []
  | .cons v rest => govFmtV v :: govFmtA rest
def govFmtO : JsonObj → List (String × String)
  | .nil => []
  | .cons k v rest => (k, govFmtV v) :: govFmtO rest
end

/-- `govFmtNum` against outputs of Go's `fmt.Sprintf("%v", float64(n))`:
scientific notation starts at `10^6`, mantissas drop trailing zeros,
exponents are two digits or more, signs carry over. -/
theorem govFmtNum_examples :
    govFmtNum 1700000000 = "1.7e+09" ∧ govFmtNum 10000000 = "1e+07" ∧
    govFmtNum 1000000 = "1e+06" ∧ govFmtNum 999999 = "999999" ∧
    govFmtNum (-1500000) = "-1.5e+06" ∧ govFmtNum 123456789 = "1.23456789e+08" ∧
    govFmtNum 100000000000 = "1e+11" ∧ govFmtNum 0 = "0" ∧
    govFmtNum (-42) = "-42" :=
  ⟨rfl, rfl, rfl, rfl, rfl, rfl, rfl, rfl, rfl⟩

def escapeJsonChar (c : Char) : String :=
  if c = '"' then "\\\""
  else if c = '\\' then "\\\\"
  else if c = '\n' then "\\n"
  else if c = '\t' then "\\t"
  else if c = '\r' then "\\r"
  else String.mk [c]

/-- JSON string escaping (the subset relevant to the modelled values; Go
additionally escapes control characters and `<`, `>`, `&`). -/
def escapeJson (s : String) : String := String.join (s.toList.map escapeJsonChar)

mutual
/-- `json.Marshal` of a decoded value: JSON text, object keys sorted.
Unlike `fmt %v`, `encoding/json` keeps the fixed (`'f'`-style) form for
float64 exponents up to `10^21`, so integral numbers marshal as their
plain decimal digits throughout the modelled subset. -/
def marshalV : JsonValue → String
  | .null => "null"
  | .bool b => if b then "true" else "false"
  | .num n => toString n
  | .str s => "\"" ++ escapeJson s ++ "\""
  | .arr l => "[" ++ ",".intercalate (marshalA l) ++ "]"
  | .obj o =>
    "\x7b" ++ ",".intercalate
      ((sortPairs (marshalO o)).map
        (fun p => "\"" ++ escapeJson p.1 ++ "\":" ++ p.2)) ++ "\x7d"
def marshalA : JsonArr → List String
  | .nil => []
  | .cons v rest => marshalV v :: marshalA rest
def marshalO : JsonObj → List (String × String)
  | .nil => []
  | .cons k v rest => (k, marshalV v) :: marshalO rest
end

/-!
## JSON parsing (`json.Unmarshal` into `map[string]interface{}`)

A recursive-descent parser over characters, driven by a fuel counter so
recursion is structural on `Nat` (every recursive call strictly decreases
fuel; starting with `length + 1` is always enough because each descent
consumes input). Modelled subset: no floats, exponents or `\u` escapes.
-/

def skipWs : List Char → List Char
  | c :: rest => if c = ' ' ∨ c = '\t' ∨ c = '\n' ∨ c = '\r' then skipWs rest else c :: rest
  | [] => []

def parseDigitsAux : Nat → List Char → Nat × List Char
  | acc, c :: rest =>
    if c.isDigit then parseDigitsAux (acc * 10 + (c.toNat - 48)) rest else (acc, c :: rest)
  | acc, [] => (acc, [])

def unescape (c : Char) : Option Char :=
  if c = '"' then some '"'
  else if c = '\\' then some '\\'
  else if c = '/' then some '/'
  else if c = 'n' then some '\n'
  else if c = 't' then some '\t'
  else if c = 'r' then some '\r'
  else if c = 'b' then some (Char.ofNat 8)
  else if c = 'f' then some (Char.ofNat 12)
  else none

def parseStringChars : List Char → Option (List Char × List Char)
  | [] => none
  | '"' :: rest => some ([], rest)
  | '\\' :: rest =>
    match rest with
    | [] => none
    | e :: rest2 =>
      match unescape e with
      | none => none
      | some c =>
        match parseStringChars rest2 with
        | none => none
        | some (s, r) => some (c :: s, r)
  | c :: rest =>
    match parseStringChars rest with
    | none => none
    | some (s, r) => some (c :: s, r)

mutual
def parseValue : Nat → List Char → Option (JsonValue × List Char)
  | 0, _ => none
  | fuel + 1, s =>
    match skipWs s with
    | [] => none
    | c :: rest =>
      if c = '"' then
        match parseStringChars rest with
        | none => none
        | some (chars, r) => some (.str chars.asString, r)
      else if c = Char.ofNat 123 then
        match skipWs rest with
        | c2 :: rest2 =>
          if c2 = Char.ofNat 125 then some (.obj .nil, rest2)
          else
            match parseMembers fuel (c2 :: rest2) JsonObj.nil with
            | none => none
            | some (o, r) => some (.obj o, r)
        | [] => none
      else if c = '[' then
        match skipWs rest with
        | c2 :: rest2 =>
          if c2 = ']' then some (.arr .nil, rest2)
          else
            match parseElements fuel (c2 :: rest2) with
            | none => none
            | some (l, r) => some (.arr l, r)
        | [] => none
      else if c = 't' then
        match rest with
        | 'r' :: 'u' :: 'e' :: r => some (.bool true, r)
        | _ => none
      else if c = 'f' then
        match rest with
        | 'a' :: 'l' :: 's' :: 'e' :: r => some (.bool false, r)
        | _ => none
      else if c = 'n' then
        match rest with
        | 'u' :: 'l' :: 'l' :: r => some (.null, r)
        | _ => none
      else if c = '-' then
        match rest with
        | d :: rest2 =>
          if d.isDigit then
            let p := parseDigitsAux (d.toNat - 48) rest2
            some (.num (-(p.1 : Int)), p.2)
          else none
        | [] => none
      else if c.isDigit then
        let p := parseDigitsAux (c.toNat - 48) rest
        some (.num (p.1 : Int), p.2)
      else none

def parseMembers : Nat → List Char → JsonObj → Option (JsonObj × List Char)
  | 0, _, _ => none
  | fuel + 1, s, acc =>
    match skipWs s with
    | '"' :: rest =>
      match parseStringChars rest with
      | none => none
      | some (key, r1) =>
        match skipWs r1 with
        | ':' :: r2 =>
          match parseValue fuel r2 with
          | none => none
          | some (v, r3) =>
            let acc2 := objSet acc key.asString v
            match skipWs r3 with
            | ',' :: r4 => parseMembers fuel r4 acc2
            | c5 :: r5 => if c5 = Char.ofNat 125 then some (acc2, r5) else none
            | [] => none
        | _ => none
    | _ => none

def parseElements : Nat → List Char → Option (JsonArr × List Char)
  | 0, _ => none
  | fuel + 1, s =>
    match parseValue fuel s with
    | none => none
    | some (v, r1) =>
      match skipWs r1 with
      | ',' :: r2 =>
        match parseElements fuel r2 with
        | none => none
        | some (l, r3) => some (.cons v l, r3)
      | ']' :: r2 => some (.cons v .nil, r2)
      | _ => none
end

/-- `json.Unmarshal(b, &m)` for `m : map[string]interface{}`: the input
must be one JSON object followed only by whitespace. -/
def unmarshalObj (s : List Char) : Option JsonObj :=
  match parseValue (s.length + 1) s with
  | some (.obj o, rest) => if skipWs rest = [] then some o else none
  | _ => none

/-!
## base64url (Go `base64.RawURLEncoding.DecodeString`)

URL-safe alphabet, no padding; a chunk of one leftover character (input
length ≡ 1 mod 4) or any character outside the alphabet is an error.
-/

def b64Val (c : Char) : Option Nat :=
  if 65 ≤ c.toNat ∧ c.toNat ≤ 90 then some (c.toNat - 65)
  else if 97 ≤ c.toNat ∧ c.toNat ≤ 122 then some (c.toNat - 71)
  else if 48 ≤ c.toNat ∧ c.toNat ≤ 57 then some (c.toNat + 4)
  else if c = '-' then some 62
  else if c = '_' then some 63
  else none

def b64DecodeGroups : List Char → Option (List Nat)
  | [] => some []
  | [_] => none
  | [a, b] =>
    match b64Val a, b64Val b with
    | some x, some y => some [x * 4 + y / 16]
    | _, _ => none
  | [a, b, c] =>
    match b64Val a, b64Val b, b64Val c with
    | some x, some y, some z => some [x * 4 + y / 16, (y % 16) * 16 + z / 4]
    | _, _, _ => none
  | a :: b :: c :: d :: rest =>
    match b64Val a, b64Val b, b64Val c, b64Val d, b64DecodeGroups rest with
    | some x, some y, some z, some w, some tail =>
        some ((x * 4 + y / 16) :: ((y % 16) * 16 + z / 4) :: ((z % 4) * 64 + w) :: tail)
    | _, _, _, _, _ => none

/-!
## Configuration (`FromJWT`) and the request model

The request exposes exactly what `fromJWT.go` touches: the
`Authorization` and `Content-type` headers, named cookies, the URL path,
the query (the `url.Values` map view), and an optional single-read body.
`body = some data` is a readable stream whose remaining bytes are `data`;
after `ioutil.ReadAll` + `Close` the field still holds a (now drained)
stream, `some []`.
-/

structure modifierEntry where
  Name : String
  KeyJWT : String
  deriving DecidableEq

structure pathPosModifierEntry where
  Position : Int
  KeyJWT : String
  deriving DecidableEq

structure FromJWT where
  Querystring : List modifierEntry
  PathString : List modifierEntry
  PathParam : List pathPosModifierEntry
  JsonBody : List modifierEntry
  Scope : List String
  JwtCookieKey : String

structure Request where
  authHeader : Option String
  contentType : Option String
  cookies : List (String × String)
  urlPath : String
  urlQuery : List (String × List String)
  body : Option (List Char)

/-- `req.Cookie(name)`: the first cookie with that name, if any. -/
def cookieGet (req : Request) (name : String) : Option String :=
  (req.cookies.find? (fun p => p.1 == name)).map (fun p => p.2)

def asciiLower (c : Char) : Char :=
  if 65 ≤ c.toNat ∧ c.toNat ≤ 90 then Char.ofNat (c.toNat + 32) else c

/-- `strings.EqualFold` restricted to ASCII (exact for the comparisons the
code makes, whose right-hand side is `"BEARER "`). -/
def asciiEqualFold (a b : List Char) : Bool := a.map asciiLower == b.map asciiLower

/-- The raw token taken from an `Authorization` header value: the part
after the case-insensitive 7-character `Bearer ` marker, provided the
value is strictly longer than the marker; otherwise `""`. -/
def bearerTokenOf (h : String) : String :=
  if 7 < h.toList.length ∧ asciiEqualFold (h.toList.take 7) ("BEARER ".toList) then
    (h.toList.drop 7).asString
  else ""

/-- The token-format part of `parseJwtValues`: split the raw token on `.`;
fewer than three parts is `bad format of jwt`; base64url-decode the second
part and JSON-parse the result into the claim map. -/
def parseRawToken (raw : String) : Except String JsonObj :=
  let jwtParts := splitStr '.' raw.toList
  if jwtParts.length < 3 then .error "bad format of jwt"
  else
    match b64DecodeGroups (jwtParts.getD 1 []) with
    | none => .error "illegal base64 data"
    | some bytes =>
      match unmarshalObj (bytes.map Char.ofNat) with
      | none => .error "invalid json in jwt payload"
      | some o => .ok o

/-- `FromJWT.parseJwtValues`: token discovery (bearer header first, named
cookie second — an absent cookie is the lookup's error, an empty raw token
is `jwt not found in auth header, nor cookie`), then `parseRawToken`. -/
def parseJwtValues (self : FromJWT) (req : Request) : Except String JsonObj :=
  let raw := bearerTokenOf (req.authHeader.getD "")
  if raw = "" then
    match cookieGet req self.JwtCookieKey with
    | none => .error "http: named cookie not present"
    | some v =>
      if v = "" then .error "jwt not found in auth header, nor cookie"
      else parseRawToken v
  else parseRawToken raw

/-!
## The request-mutation pipeline (`ModifyRequest`)

Each step mutates the request in place in Go; here it returns `Res`:
`ok` with the new request, `fail` with the request as already mutated at
the point of failure plus the error message, or `crash` for a runtime
panic. `ModifyRequest` chains the steps, stopping at the first `fail`.
-/

inductive Res (α : Type) where
  | ok (a : α)
  | fail (a : α) (msg : String)
  | crash

/-- Lookup in a Go map represented as an association list (unique keys). -/
def assocGet {α : Type} : List (String × α) → String → Option α
  | [], _ => none
  | p :: rest, k => if p.1 == k then some p.2 else assocGet rest k

/-- Map assignment on an association list with unique keys. -/
def assocSet {α : Type} : List (String × α) → String → α → List (String × α)
  | [], k, v => [(k, v)]
  | p :: rest, k, v => if p.1 == k then (k, v) :: rest else p :: assocSet rest k v

theorem assocGet_set_self {α : Type} (q : List (String × α)) (k : String) (v : α) :
    assocGet (assocSet q k v) k = some v := by
  induction q with
  | nil => simp [assocGet, assocSet]
  | cons p rest ih =>
    by_cases h : p.1 == k
    · simp [assocGet, assocSet, h]
    · simp [assocGet, assocSet, h, ih]

theorem assocGet_set_other {α : Type} (q : List (String × α)) (k k' : String) (v : α)
    (h : k' ≠ k) : assocGet (assocSet q k v) k' = assocGet q k' := by
  have hkk : ¬ (k == k') := by simpa using fun e => h e.symm
  induction q with
  | nil => simp [assocGet, assocSet, hkk]
  | cons p rest ih =>
    by_cases hp : p.1 == k
    · have hp' : ¬ (p.1 == k') := by
        have hpe : p.1 = k := by simpa using hp
        simpa [hpe] using hkk
      simp [assocGet, assocSet, hp, hkk, hp']
    · by_cases hp2 : p.1 == k'
      · simp [assocGet, assocSet, hp, hp2]
      · simp [assocGet, assocSet, hp, hp2, ih]

/-- The shared shape of the rule loops over `modifierEntry` lists: look the
rule's claim up in the claim map, abort with `key=<名> not in jwt` if
absent, otherwise store the claim value at the rule's destination and
continue. `modifyQuerystring` instantiates `set` with `url.Values.Set` of
the formatted value, `modifyBodyJson` with raw map assignment. -/
def applyEntries {σ : Type} (set : σ → String → JsonValue → σ) :
    List modifierEntry → JsonObj → σ → Except String σ
  | [], _, st => .ok st
  | e :: rest, m, st =>
    match objGet m e.KeyJWT with
    | none => .error ("key=" ++ e.KeyJWT ++ " not in jwt")
    | some v => applyEntries set rest m (set st e.Name v)

/-- `url.Values.Set(name, val)`: replace any existing values of `name` by
the single new value. -/
def querySet (q : List (String × List String)) (name val : String) :
    List (String × List String) :=
  assocSet q name [val]

/-- `FromJWT.modifyQuerystring`: the query map is read once, mutated
rule by rule, and written back only after all rules succeeded (on error
the request's query is untouched). -/
def modifyQuerystring (self : FromJWT) (m : JsonObj) (req : Request) : Res Request :=
  match applyEntries (fun q name v => querySet q name (govFmtV v))
      self.Querystring m req.urlQuery with
  | .error e => .fail req e
  | .ok q => .ok { req with urlQuery := q }

def modifyPathParamsAux : List pathPosModifierEntry → JsonObj → String → Res String
  | [], _, path => .ok path
  | e :: rest, m, path =>
    match objGet m e.KeyJWT with
    | none => .fail path ("key=" ++ e.KeyJWT ++ " not in jwt")
    | some v =>
      match replaceVarInUrl path e.Position (govFmtV v) with
      | none => .crash
      | some p => modifyPathParamsAux rest m p

/-- `FromJWT.modifyPathParams`: positional path rules applied in order,
each rewriting `req.URL.Path` in place (a failure keeps the rewrites made
so far). -/
def modifyPathParams (self : FromJWT) (m : JsonObj) (req : Request) : Res Request :=
  match modifyPathParamsAux self.PathParam m req.urlPath with
  | .ok p => .ok { req with urlPath := p }
  | .fail p e => .fail { req with urlPath := p } e
  | .crash => .crash

def modifyPathStringsAux : List modifierEntry → JsonObj → String → Res String
  | [], _, path => .ok path
  | e :: rest, m, path =>
    match objGet m e.KeyJWT with
    | none => .fail path ("key=" ++ e.KeyJWT ++ " not in jwt")
    | some v => modifyPathStringsAux rest m (path.replace e.Name (govFmtV v))

/-- `FromJWT.modifyPathStrings`: literal substring replacement in the
path, rule by rule, in place. -/
def modifyPathStrings (self : FromJWT) (m : JsonObj) (req : Request) : Res Request :=
  match modifyPathStringsAux self.PathString m req.urlPath with
  | .ok p => .ok { req with urlPath := p }
  | .fail p e => .fail { req with urlPath := p } e
  | .crash => .crash

/-- The body-rule loop of `modifyBodyJson`: plain map assignment of the
raw decoded claim value (no stringification). -/
def applyBodyRules (rules : List modifierEntry) (m : JsonObj) (obj : JsonObj) :
    Except String JsonObj :=
  applyEntries (fun o name v => objSet o name v) rules m obj

/-- `FromJWT.modifyBodyJson`: skipped when there is no body, no body
rules, or the `Content-type` header is not exactly `application/json`;
otherwise the body is fully read and closed (drained to `some []`), JSON
parsing and claim-lookup failures leave it drained, and success replaces
it with the re-marshalled object. -/
def modifyBodyJson (self : FromJWT) (m : JsonObj) (req : Request) : Res Request :=
  match req.body with
  | none => .ok req
  | some bodyBytes =>
    if self.JsonBody = [] ∨ (req.contentType.getD "") ≠ "application/json" then .ok req
    else
      let req1 := { req with body := some [] }
      match unmarshalObj bodyBytes with
      | none => .fail req1 "invalid json body"
      | some obj =>
        match applyBodyRules self.JsonBody m obj with
        | .error msg => .fail req1 msg
        | .ok obj2 => .ok { req1 with body := some (marshalV (.obj obj2)).toList }

/-- `FromJWT.ModifyRequest`: extract claims, then apply query rules,
positional path rules, string path rules and JSON-body rules in that
order, stopping at the first error (the request keeps the mutations made
before the failing step). -/
def ModifyRequest (self : FromJWT) (req : Request) : Res Request :=
  match parseJwtValues self req with
  | .error e => .fail req e
  | .ok m =>
    match modifyQuerystring self m req with
    | .crash => .crash
    | .fail r e => .fail r e
    | .ok r1 =>
      match modifyPathParams self m r1 with
      | .crash => .crash
      | .fail r e => .fail r e
      | .ok r2 =>
        match modifyPathStrings self m r2 with
        | .crash => .crash
        | .fail r e => .fail r e
        | .ok r3 =>
          match modifyBodyJson self m r3 with
          | .crash => .crash
          | .fail r e => .fail r e
          | .ok r4 => .ok r4

/-!
## Behaviour of the rule loops
-/

/-- A rule loop whose prefix of rules all resolve hits the first rule with
an absent claim and aborts with its `ClaimNotFound` message. -/
theorem applyEntries_error {σ : Type} (set : σ → String → JsonValue → σ)
    (pre post : List modifierEntry) (e : modifierEntry) (m : JsonObj) (st : σ)
    (hpre : ∀ r ∈ pre, (objGet m r.KeyJWT).isSome)
    (he : objGet m e.KeyJWT = none) :
    applyEntries set (pre ++ e :: post) m st
      = .error ("key=" ++ e.KeyJWT ++ " not in jwt") := by
  induction pre generalizing st with
  | nil => simp [applyEntries, he]
  | cons r rest ih =>
    obtain ⟨v, hv⟩ := Option.isSome_iff_exists.mp (hpre r (List.mem_cons_self r rest))
    simp only [List.cons_append, applyEntries, hv]
    exact ih _ (fun x hx => hpre x (List.mem_cons_of_mem r hx))

/-- A rule loop whose claims all resolve succeeds; destinations named by
no rule keep their value, and each destination keeps the value stored by
its last rule. Abstract in the state (`σ`) and its get/put pair, so it
serves both the query loop and the body loop. -/
theorem applyEntries_ok_spec {σ β : Type} (put : σ → String → JsonValue → σ)
    (get : σ → String → Option β) (val : JsonValue → β)
    (hself : ∀ st k v, get (put st k v) k = some (val v))
    (hother : ∀ st k k' v, k' ≠ k → get (put st k v) k' = get st k')
    (rules : List modifierEntry) (m : JsonObj) (st : σ)
    (hall : ∀ r ∈ rules, (objGet m r.KeyJWT).isSome) :
    ∃ st', applyEntries put rules m st = .ok st' ∧
      (∀ f, (∀ r ∈ rules, r.Name ≠ f) → get st' f = get st f) ∧
      (∀ pre e post, rules = pre ++ e :: post →
        (∀ r ∈ post, r.Name ≠ e.Name) →
        ∀ v, objGet m e.KeyJWT = some v → get st' e.Name = some (val v)) := by
  induction rules generalizing st with
  | nil =>
    refine ⟨st, rfl, fun f _ => rfl, ?_⟩
    intro pre e post heq
    exact absurd heq (by simp)
  | cons r rest ih =>
    obtain ⟨v0, hv0⟩ := Option.isSome_iff_exists.mp (hall r (List.mem_cons_self r rest))
    obtain ⟨st', hok, hpres, hsets⟩ :=
      ih (put st r.Name v0) (fun x hx => hall x (List.mem_cons_of_mem r hx))
    refine ⟨st', by simp [applyEntries, hv0, hok], ?_, ?_⟩
    · intro f hf
      have h1 : ∀ x ∈ rest, x.Name ≠ f := fun x hx => hf x (List.mem_cons_of_mem r hx)
      rw [hpres f h1,
        hother st r.Name f v0 (Ne.symm (hf r (List.mem_cons_self r rest)))]
    · intro pre e post heq hpost v hv
      cases pre with
      | nil =>
        simp only [List.nil_append] at heq
        injection heq with hre hrest
        rw [← hre] at hpost hv ⊢
        rw [← hrest] at hpost
        rw [hpres r.Name hpost, hself st r.Name v0]
        rw [hv] at hv0
        injection hv0 with hvv
        rw [hvv]
      | cons p pre' =>
        simp only [List.cons_append] at heq
        injection heq with hrp hrest
        exact hsets pre' e post hrest hpost v hv

/-!
## Token extraction
-/

theorem asString_toList (s : String) : s.toList.asString = s := rfl

theorem toList_eq_nil (s : String) (h : s.toList = []) : s = "" := String.ext h

theorem toList_append (p raw : String) : (p ++ raw).toList = p.toList ++ raw.toList :=
  String.data_append p raw

/-- A header value made of a 7-character ASCII-case-insensitive `BEARER `
marker followed by a non-empty remainder yields that remainder as the raw
token. -/
theorem bearerTokenOf_append (p raw : String) (hp7 : p.toList.length = 7)
    (hfold : asciiEqualFold p.toList ("BEARER ".toList)) (hraw : raw ≠ "") :
    bearerTokenOf (p ++ raw) = raw := by
  have hne : raw.toList ≠ [] := fun h => hraw (toList_eq_nil raw h)
  have hlen : 0 < raw.toList.length := List.length_pos.mpr hne
  have htl : (p ++ raw).toList = p.toList ++ raw.toList := toList_append p raw
  have hcond : 7 < ((p ++ raw).toList).length ∧
      asciiEqualFold ((p ++ raw).toList.take 7) ("BEARER ".toList) := by
    rw [htl, List.take_left' hp7, List.length_append, hp7]
    exact ⟨by omega, hfold⟩
  rw [bearerTokenOf, if_pos hcond, htl, List.drop_left' hp7, asString_toList]

/-- A raw token with at least three dot-separated parts whose second part
base64url-decodes and JSON-parses to an object yields exactly that
object. -/
theorem parseRawToken_ok_of (raw : String) (bytes : List Nat) (o : JsonObj)
    (hlen : 3 ≤ (splitStr '.' raw.toList).length)
    (hdec : b64DecodeGroups ((splitStr '.' raw.toList).getD 1 []) = some bytes)
    (hobj : unmarshalObj (bytes.map Char.ofNat) = some o) :
    parseRawToken raw = .ok o := by
  have hnlt : ¬ ((splitStr '.' raw.toList).length < 3) := by omega
  simp only [parseRawToken, if_neg hnlt, hdec, hobj]

/-- C6: bearer recognition in the `Authorization` header is
case-insensitive (any 7-character marker ASCII-case-equal to `BEARER `)
and hands the rest of the header value to token parsing; a token with
exactly three segments whose payload decodes to a JSON object succeeds
with that object; a token with only two segments fails with the
`bad format of jwt` (MalformedToken) error; and with no `Authorization`
header, a present non-empty cookie named by the configured cookie key is
used as the raw token. -/
theorem parseJwtValues_token_extraction (self : FromJWT) :
    (∀ (req : Request) (p raw : String),
      req.authHeader = some (p ++ raw) →
      p.toList.length = 7 → asciiEqualFold p.toList ("BEARER ".toList) →
      raw ≠ "" →
      parseJwtValues self req = parseRawToken raw) ∧
    (∀ (raw : String) (bytes : List Nat) (o : JsonObj),
      (splitStr '.' raw.toList).length = 3 →
      b64DecodeGroups ((splitStr '.' raw.toList).getD 1 []) = some bytes →
      unmarshalObj (bytes.map Char.ofNat) = some o →
      parseRawToken raw = .ok o) ∧
    (∀ raw : String, (splitStr '.' raw.toList).length = 2 →
      parseRawToken raw = .error "bad format of jwt") ∧
    (∀ (req : Request) (v : String),
      req.authHeader = none → cookieGet req self.JwtCookieKey = some v → v ≠ "" →
      parseJwtValues self req = parseRawToken v) := by
  refine ⟨?_, ?_, ?_, ?_⟩
  · intro req p raw hhdr hp7 hfold hraw
    have hb := bearerTokenOf_append p raw hp7 hfold hraw
    simp only [parseJwtValues, hhdr, Option.getD_some, hb, if_neg hraw]
  · intro raw bytes o hlen hdec hobj
    exact parseRawToken_ok_of raw bytes o (by omega) hdec hobj
  · intro raw hlen
    simp only [parseRawToken, hlen]
    norm_num
  · intro req v hhdr hcookie hv
    have hb : bearerTokenOf "" = "" := rfl
    simp only [parseJwtValues, hhdr, Option.getD_none, hb, if_pos rfl, hcookie,
      if_neg hv]
    simp

/-- Witness for C6, all four conjuncts at concrete inputs: a `bEaReR `
header carrying `x.eyJhIjoxfQ.y` (payload `{"a":1}`); that 3-segment
token parsing to the claim map; the 2-segment token `a.b` failing; and
the cookie fallback. -/
theorem parseJwtValues_token_extraction_witness :
    (parseJwtValues ⟨[], [], [], [], [], "jk"⟩
        ⟨some ("bEaReR " ++ "x.eyJhIjoxfQ.y"), none, [], "", [], none⟩
      = parseRawToken "x.eyJhIjoxfQ.y") ∧
    (parseRawToken "x.eyJhIjoxfQ.y" = .ok (JsonObj.cons "a" (.num 1) .nil)) ∧
    (parseRawToken "a.b" = .error "bad format of jwt") ∧
    (parseJwtValues ⟨[], [], [], [], [], "jk"⟩
        ⟨none, none, [("jk", "tok")], "", [], none⟩
      = parseRawToken "tok") := by
  have t := parseJwtValues_token_extraction ⟨[], [], [], [], [], "jk"⟩
  refine ⟨?_, ?_, ?_, ?_⟩
  · exact t.1 ⟨some ("bEaReR " ++ "x.eyJhIjoxfQ.y"), none, [], "", [], none⟩
      "bEaReR " "x.eyJhIjoxfQ.y" rfl rfl rfl (by decide)
  · exact t.2.1 "x.eyJhIjoxfQ.y" [123, 34, 97, 34, 58, 49, 125]
      (JsonObj.cons "a" (.num 1) .nil) rfl rfl rfl
  · exact t.2.2.1 "a.b" rfl
  · exact t.2.2.2 ⟨none, none, [("jk", "tok")], "", [], none⟩ "tok" rfl rfl (by decide)

/-- C9: the segment-count check is `< 3`, so any raw token splitting into
three or more dot-separated parts passes it; only the second part is
decoded as the payload, and the token succeeds with the decoded object
whenever that part base64url-decodes to JSON-object text — in particular
tokens with four or more segments. -/
theorem parseRawToken_multi_segment (raw : String) (bytes : List Nat) (o : JsonObj)
    (hlen : 3 ≤ (splitStr '.' raw.toList).length)
    (hdec : b64DecodeGroups ((splitStr '.' raw.toList).getD 1 []) = some bytes)
    (hobj : unmarshalObj (bytes.map Char.ofNat) = some o) :
    parseRawToken raw = .ok o :=
  parseRawToken_ok_of raw bytes o hlen hdec hobj

/-- Witness for C9: a 4-segment token whose payload is `{"a":1}`. -/
theorem parseRawToken_multi_segment_witness :
    parseRawToken "x.eyJhIjoxfQ.y.z" = .ok (JsonObj.cons "a" (.num 1) .nil) :=
  parseRawToken_multi_segment "x.eyJhIjoxfQ.y.z" [123, 34, 97, 34, 58, 49, 125]
    (JsonObj.cons "a" (.num 1) .nil) (by decide) rfl rfl

/-- C2 (amended): for every query rule list whose claims all resolve,
`modifyQuerystring` succeeds and each destination query parameter holds
the single value produced by Go's default formatting (`fmt %v`) of the
claim stored by the last rule naming that destination: strings as
themselves, booleans as `true`/`false`, numbers in the shortest `%g`
form — plain decimal below `10^6` but scientific notation from `10^6` on
(a `1700000000` timestamp claim becomes `1.7e+09`) — and arrays and
objects in Go's `[elem elem]` / `map[key:value]` notation, not their
JSON text. -/
theorem modifyQuerystring_sets (self : FromJWT) (m : JsonObj) (req : Request)
    (hall : ∀ r ∈ self.Querystring, (objGet m r.KeyJWT).isSome) :
    ∃ req', modifyQuerystring self m req = .ok req' ∧
      (∀ pre e post, self.Querystring = pre ++ e :: post →
        (∀ r ∈ post, r.Name ≠ e.Name) →
        ∀ v, objGet m e.KeyJWT = some v →
          assocGet req'.urlQuery e.Name = some [govFmtV v]) := by
  obtain ⟨q', hok, hpres, hsets⟩ :=
    applyEntries_ok_spec (fun q name v => querySet q name (govFmtV v))
      assocGet (fun v => [govFmtV v])
      (fun st k v => assocGet_set_self st k [govFmtV v])
      (fun st k k' v h => assocGet_set_other st k k' [govFmtV v] h)
      self.Querystring m req.urlQuery hall
  refine ⟨{ req with urlQuery := q' }, ?_, ?_⟩
  · simp [modifyQuerystring, hok]
  · intro pre e post heq hpost v hv
    simpa using hsets pre e post heq hpost v hv

/-- Witness for the amended C2: a bool rule overwriting an existing
parameter and a rule carrying a timestamp-sized numeric claim (whose
`fmt %v` form is `1.7e+09`). -/
theorem modifyQuerystring_sets_witness :
    ∃ req', modifyQuerystring
        ⟨[⟨"dst", "c"⟩, ⟨"dst2", "a"⟩], [], [], [], [], ""⟩
        (JsonObj.cons "a" (.num 1700000000) (JsonObj.cons "c" (.bool true) .nil))
        ⟨none, none, [], "", [("dst", ["old"])], none⟩ = .ok req' ∧
      (∀ pre e post,
        ([⟨"dst", "c"⟩, ⟨"dst2", "a"⟩] : List modifierEntry) = pre ++ e :: post →
        (∀ r ∈ post, r.Name ≠ e.Name) →
        ∀ v, objGet
            (JsonObj.cons "a" (.num 1700000000) (JsonObj.cons "c" (.bool true) .nil))
            e.KeyJWT = some v →
          assocGet req'.urlQuery e.Name = some [govFmtV v]) :=
  modifyQuerystring_sets
    ⟨[⟨"dst", "c"⟩, ⟨"dst2", "a"⟩], [], [], [], [], ""⟩
    (JsonObj.cons "a" (.num 1700000000) (JsonObj.cons "c" (.bool true) .nil))
    ⟨none, none, [], "", [("dst", ["old"])], none⟩ (by decide)

/-- Counterexample to C2 as stated: an array-valued claim reaches the
query as Go's `fmt %v` rendering `[1 2]`, not as its JSON text `[1,2]`. -/
theorem modifyQuerystring_array_cex :
    modifyQuerystring
        ⟨[⟨"dst", "c"⟩], [], [], [], [], ""⟩
        (JsonObj.cons "c" (.arr (.cons (.num 1) (.cons (.num 2) .nil))) .nil)
        ⟨none, none, [], "", [], none⟩
      = .ok ⟨none, none, [], "", [("dst", ["[1 2]"])], none⟩ ∧
    govFmtV (.arr (.cons (.num 1) (.cons (.num 2) .nil))) = "[1 2]" ∧
    marshalV (.arr (.cons (.num 1) (.cons (.num 2) .nil))) = "[1,2]" ∧
    ("[1 2]" : String) ≠ "[1,2]" :=
  ⟨rfl, rfl, rfl, by decide⟩

/-- C3: when the first query rule with an absent claim is hit,
`ModifyRequest` fails with that claim's `key=... not in jwt` error and
hands back the request completely unchanged — neither the remaining query
rules nor any positional path, string path or JSON body rule has been
applied to it. -/
theorem ModifyRequest_query_claim_missing (self : FromJWT) (req : Request)
    (m : JsonObj) (pre post : List modifierEntry) (e : modifierEntry)
    (hparse : parseJwtValues self req = .ok m)
    (hq : self.Querystring = pre ++ e :: post)
    (hpre : ∀ r ∈ pre, (objGet m r.KeyJWT).isSome)
    (he : objGet m e.KeyJWT = none) :
    ModifyRequest self req = .fail req ("key=" ++ e.KeyJWT ++ " not in jwt") := by
  have herr := applyEntries_error (fun q name v => querySet q name (govFmtV v))
      pre post e m req.urlQuery hpre he
  rw [← hq] at herr
  simp [ModifyRequest, hparse, modifyQuerystring, herr]

/-- Witness for C3: the configuration also carries a positional path rule
whose claim exists, yet the failing query rule leaves the request (path
included) untouched. -/
theorem ModifyRequest_query_claim_missing_witness :
    ModifyRequest
        ⟨[⟨"d", "missing"⟩], [], [⟨0, "a"⟩], [], [], ""⟩
        ⟨some "Bearer x.eyJhIjoxfQ.y", none, [], "/p", [], none⟩
      = .fail ⟨some "Bearer x.eyJhIjoxfQ.y", none, [], "/p", [], none⟩
          ("key=" ++ "missing" ++ " not in jwt") :=
  ModifyRequest_query_claim_missing
    ⟨[⟨"d", "missing"⟩], [], [⟨0, "a"⟩], [], [], ""⟩
    ⟨some "Bearer x.eyJhIjoxfQ.y", none, [], "/p", [], none⟩
    (JsonObj.cons "a" (.num 1) .nil) [] [] ⟨"d", "missing"⟩
    rfl rfl (by simp) rfl

/-- C7: with a body present, a non-empty body rule list, JSON content
type, a body parsing to a JSON object, and all body-rule claims present,
`modifyBodyJson` succeeds; the replacement body is the marshalled
rewritten object, which keeps every field named by no rule and maps each
rule's destination (last rule per destination) to the claim's raw decoded
value — its native JSON type preserved, with no stringification. -/
theorem modifyBodyJson_rewrites (self : FromJWT) (m : JsonObj) (req : Request)
    (body : List Char) (obj : JsonObj)
    (hbody : req.body = some body)
    (hrules : self.JsonBody ≠ [])
    (hct : req.contentType.getD "" = "application/json")
    (hparse : unmarshalObj body = some obj)
    (hall : ∀ r ∈ self.JsonBody, (objGet m r.KeyJWT).isSome) :
    ∃ obj2, modifyBodyJson self m req
        = .ok { req with body := some (marshalV (.obj obj2)).toList } ∧
      (∀ f, (∀ r ∈ self.JsonBody, r.Name ≠ f) → objGet obj2 f = objGet obj f) ∧
      (∀ pre e post, self.JsonBody = pre ++ e :: post →
        (∀ r ∈ post, r.Name ≠ e.Name) →
        ∀ v, objGet m e.KeyJWT = some v → objGet obj2 e.Name = some v) := by
  obtain ⟨obj2, hok, hpres, hsets⟩ :=
    applyEntries_ok_spec (fun o name v => objSet o name v) objGet (fun v => v)
      (fun st k v => objGet_set_self st k v)
      (fun st k k' v h => objGet_set_other st k k' v h)
      self.JsonBody m obj hall
  have hcond : ¬ (self.JsonBody = [] ∨
      (req.contentType.getD "") ≠ "application/json") := by
    rintro (h | h)
    · exact hrules h
    · exact h hct
  refine ⟨obj2, ?_, hpres, hsets⟩
  simp only [modifyBodyJson, hbody, if_neg hcond, hparse, applyBodyRules, hok]

/-- Witness for C7: body `{"a":1,"b":2}`, one rule writing claim `c = 7`
into field `b`. -/
theorem modifyBodyJson_rewrites_witness :
    ∃ obj2, modifyBodyJson ⟨[], [], [], [⟨"b", "c"⟩], [], ""⟩
        (JsonObj.cons "c" (.num 7) .nil)
        ⟨none, some "application/json", [], "", [],
          some ("\x7b\"a\":1,\"b\":2\x7d".toList)⟩
        = .ok { (⟨none, some "application/json", [], "", [],
              some ("\x7b\"a\":1,\"b\":2\x7d".toList)⟩ : Request) with
            body := some (marshalV (.obj obj2)).toList } ∧
      (∀ f, (∀ r ∈ ([⟨"b", "c"⟩] : List modifierEntry), r.Name ≠ f) →
        objGet obj2 f = objGet (JsonObj.cons "a" (.num 1) (JsonObj.cons "b" (.num 2) .nil)) f) ∧
      (∀ pre e post, ([⟨"b", "c"⟩] : List modifierEntry) = pre ++ e :: post →
        (∀ r ∈ post, r.Name ≠ e.Name) →
        ∀ v, objGet (JsonObj.cons "c" (.num 7) .nil) e.KeyJWT = some v →
          objGet obj2 e.Name = some v) :=
  modifyBodyJson_rewrites ⟨[], [], [], [⟨"b", "c"⟩], [], ""⟩
    (JsonObj.cons "c" (.num 7) .nil)
    ⟨none, some "application/json", [], "", [],
      some ("\x7b\"a\":1,\"b\":2\x7d".toList)⟩
    ("\x7b\"a\":1,\"b\":2\x7d".toList)
    (JsonObj.cons "a" (.num 1) (JsonObj.cons "b" (.num 2) .nil))
    rfl (by decide) rfl rfl (by decide)

/-- C8: with no body, or an empty body-rule list, or a `Content-type`
other than exactly `application/json`, the JSON-body step returns the
request unchanged and reports no error — even when body rules are
configured and their claims exist. -/
theorem modifyBodyJson_noop (self : FromJWT) (m : JsonObj) (req : Request)
    (h : req.body = none ∨ self.JsonBody = [] ∨
      req.contentType.getD "" ≠ "application/json") :
    modifyBodyJson self m req = .ok req := by
  cases hb : req.body with
  | none => simp [modifyBodyJson, hb]
  | some b =>
    have hcond : self.JsonBody = [] ∨
        (req.contentType.getD "") ≠ "application/json" := by
      rcases h with h | h | h
      · rw [hb] at h; exact absurd h (by simp)
      · exact Or.inl h
      · exact Or.inr h
    simp only [modifyBodyJson, hb]
    rw [if_pos hcond]

/-- Witness for C8: a configured body rule whose claim exists, a body
present, but content type `text/plain`: the request is returned as is. -/
theorem modifyBodyJson_noop_witness :
    modifyBodyJson ⟨[], [], [], [⟨"d", "a"⟩], [], ""⟩ (JsonObj.cons "a" (.num 1) .nil)
        ⟨none, some "text/plain", [], "", [], some ("x".toList)⟩
      = .ok ⟨none, some "text/plain", [], "", [], some ("x".toList)⟩ :=
  modifyBodyJson_noop ⟨[], [], [], [⟨"d", "a"⟩], [], ""⟩ (JsonObj.cons "a" (.num 1) .nil)
    ⟨none, some "text/plain", [], "", [], some ("x".toList)⟩
    (Or.inr (Or.inr (by decide)))

/-- C10: when the earlier steps succeed and a JSON-body rule references an
absent claim (body present, rules non-empty, JSON content type, body
parsing to an object), `ModifyRequest` fails with that claim's
`key=... not in jwt` error only after the body stream has been fully read
and closed: the failed request's body is the drained stream (`some []`),
not the original readable body. -/
theorem ModifyRequest_body_claim_missing (self : FromJWT)
    (req r1 r2 r3 : Request) (m : JsonObj) (body : List Char) (obj : JsonObj)
    (pre post : List modifierEntry) (e : modifierEntry)
    (h1 : parseJwtValues self req = .ok m)
    (h2 : modifyQuerystring self m req = .ok r1)
    (h3 : modifyPathParams self m r1 = .ok r2)
    (h4 : modifyPathStrings self m r2 = .ok r3)
    (hbody : r3.body = some body)
    (hct : r3.contentType.getD "" = "application/json")
    (hrules : self.JsonBody = pre ++ e :: post)
    (hparse : unmarshalObj body = some obj)
    (hpre : ∀ r ∈ pre, (objGet m r.KeyJWT).isSome)
    (he : objGet m e.KeyJWT = none) :
    ModifyRequest self req
      = .fail { r3 with body := some [] } ("key=" ++ e.KeyJWT ++ " not in jwt") := by
  have herr := applyEntries_error (fun o name v => objSet o name v)
      pre post e m obj hpre he
  rw [← hrules] at herr
  have hcond : ¬ (self.JsonBody = [] ∨
      (r3.contentType.getD "") ≠ "application/json") := by
    rintro (h | h)
    · rw [hrules] at h; simp at h
    · exact h hct
  simp only [ModifyRequest, h1, h2, h3, h4, modifyBodyJson, hbody, if_neg hcond,
    hparse, applyBodyRules, herr]

/-- Witness for C10: body `{"x":true}`, one body rule on an absent claim;
the failing request keeps everything but holds the drained body. -/
theorem ModifyRequest_body_claim_missing_witness :
    ModifyRequest ⟨[], [], [], [⟨"dst", "missing"⟩], [], ""⟩
        ⟨some "Bearer x.eyJhIjoxfQ.y", some "application/json", [], "/p", [],
          some ("\x7b\"x\":true\x7d".toList)⟩
      = .fail ⟨some "Bearer x.eyJhIjoxfQ.y", some "application/json", [], "/p", [],
            some []⟩
          ("key=" ++ "missing" ++ " not in jwt") :=
  ModifyRequest_body_claim_missing ⟨[], [], [], [⟨"dst", "missing"⟩], [], ""⟩
    ⟨some "Bearer x.eyJhIjoxfQ.y", some "application/json", [], "/p", [],
      some ("\x7b\"x\":true\x7d".toList)⟩
    ⟨some "Bearer x.eyJhIjoxfQ.y", some "application/json", [], "/p", [],
      some ("\x7b\"x\":true\x7d".toList)⟩
    ⟨some "Bearer x.eyJhIjoxfQ.y", some "application/json", [], "/p", [],
      some ("\x7b\"x\":true\x7d".toList)⟩
    ⟨some "Bearer x.eyJhIjoxfQ.y", some "application/json", [], "/p", [],
      some ("\x7b\"x\":true\x7d".toList)⟩
    (JsonObj.cons "a" (.num 1) .nil)
    ("\x7b\"x\":true\x7d".toList)
    (JsonObj.cons "x" (.bool true) .nil)
    [] [] ⟨"dst", "missing"⟩
    rfl rfl rfl rfl rfl rfl rfl rfl (by simp) rfl

end FromJwt
